import Mathlib

/-!
Verification of the Mach-O object-file emitter (`src/mach.rs`).

The Rust source is shallowly embedded: bytes are `Nat` values below 256,
byte buffers are `List Nat`, symbol names are byte lists, and the stateful
build/write passes become explicit state-passing functions.  Machine-integer
casts (`as u32`, `as i32`) are modelled with explicit `% 2^32`.

External collaborators are modelled where the emitter depends on them:
  * the `goblin` record types (`Header`, `Segment`, `Section`, `SymtabCommand`,
    `Nlist`, `RelocationInfo`) are embedded with their Mach-O on-disk layout,
    which fixes the sizes the emitter obtains through `size_with`
    (28/32-byte header, 56/72-byte segment command, 68/80-byte section header,
    24-byte symtab command, 12/16-byte nlist, 8-byte relocation record);
  * the artifact input types (`Definition`, `Link`, `Decl`, imports) follow the
    input interface: named byte payloads with `function`/`global` flags,
    links `{from.name, to.name, at, to.decl}`, and a list of import names;
  * `Ctx` (derived from `Target` outside the embedded file) carries the
    container width; all emitted multi-byte fields are little-endian, as they
    are for every CPU type this backend emits.
-/

/-- A symbol / section name: a byte string. -/
abbrev Name := List Nat

/-- Serialization context: container width (32- vs 64-bit Mach-O). -/
structure Ctx where
  is64 : Bool
deriving Repr, DecidableEq

/-- Target architecture tag. -/
inductive Target where
  | X86_64 | X86 | ARM64 | ARMv7 | Unknown
deriving Repr, DecidableEq

/-- CPU-type constant for a target (`CpuType::from`). -/
def cpuTypeOf : Target → Nat
  | .X86_64 => 0x01000007
  | .X86 => 0x00000007
  | .ARM64 => 0x0100000C
  | .ARMv7 => 0x0000000C
  | .Unknown => 0

/-- Little-endian 16-bit serialization of a machine integer. -/
def le16 (n : Nat) : List Nat := [n % 256, n / 256 % 256]

/-- Little-endian 32-bit serialization of a machine integer. -/
def le32 (n : Nat) : List Nat :=
  [n % 256, n / 256 % 256, n / 65536 % 256, n / 16777216 % 256]

/-- Little-endian 64-bit serialization of a machine integer. -/
def le64 (n : Nat) : List Nat :=
  le32 (n % 4294967296) ++ le32 (n / 4294967296)

/-- A string written into a fixed 16-byte field, zero padded
(`sectname.pwrite` into a `[u8; 16]`; the emitter only ever writes the
6-byte literals `__text`, `__TEXT`, `__data`, `__DATA`). -/
def pad16 (s : List Nat) : List Nat :=
  s.take 16 ++ List.replicate (16 - s.length) 0

/-- Size of the Mach-O header in the given container (`Header::size_with`). -/
def headerSize (ctx : Ctx) : Nat := if ctx.is64 then 32 else 28

/-- Size of a segment load command without sections (`Segment::size_with`). -/
def segmentSize (ctx : Ctx) : Nat := if ctx.is64 then 72 else 56

/-- Size of one inline section header (`Section::size_with`). -/
def sectionSize (ctx : Ctx) : Nat := if ctx.is64 then 80 else 68

/-- Size of one symbol-table entry (`Nlist::size_with`). -/
def nlistSize (ctx : Ctx) : Nat := if ctx.is64 then 16 else 12

/-- Size of one relocation record (`SIZEOF_RELOCATION_INFO`). -/
def SIZEOF_RELOCATION_INFO : Nat := 8

/-- The Mach-O header record (`goblin::mach::header::Header`). -/
structure MachHeader where
  magic : Nat
  cputype : Nat
  cpusubtype : Nat
  filetype : Nat
  ncmds : Nat
  sizeofcmds : Nat
  flags : Nat
deriving Repr, DecidableEq

/-- Mach-O header serialization: seven 32-bit words, plus a reserved word in
the 64-bit container. -/
def serializeHeader (ctx : Ctx) (h : MachHeader) : List Nat :=
  le32 h.magic ++ le32 h.cputype ++ le32 h.cpusubtype ++ le32 h.filetype ++
    le32 h.ncmds ++ le32 h.sizeofcmds ++ le32 h.flags ++
    (if ctx.is64 then le32 0 else [])

/-- The segment load command record (`goblin::mach::segment::Segment`). -/
structure MachSegment where
  cmd : Nat
  cmdsize : Nat
  segname : List Nat
  vmaddr : Nat
  vmsize : Nat
  fileoff : Nat
  filesize : Nat
  maxprot : Nat
  initprot : Nat
  nsects : Nat
  flags : Nat
deriving Repr, DecidableEq

/-- Segment load-command serialization (width of the four address/size fields
depends on the container). -/
def serializeSegment (ctx : Ctx) (s : MachSegment) : List Nat :=
  le32 s.cmd ++ le32 s.cmdsize ++ pad16 s.segname ++
    (if ctx.is64 then
      le64 s.vmaddr ++ le64 s.vmsize ++ le64 s.fileoff ++ le64 s.filesize
    else
      le32 s.vmaddr ++ le32 s.vmsize ++ le32 s.fileoff ++ le32 s.filesize) ++
    le32 s.maxprot ++ le32 s.initprot ++ le32 s.nsects ++ le32 s.flags

/-- An inline section header record (`goblin::mach::segment::Section`). -/
structure MachSection where
  sectname : List Nat
  segname : List Nat
  addr : Nat
  size : Nat
  offset : Nat
  align : Nat
  reloff : Nat
  nreloc : Nat
  flags : Nat
deriving Repr, DecidableEq

/-- Section-header serialization; the 64-bit container has 8-byte
`addr`/`size` fields and three reserved words, the 32-bit container 4-byte
fields and two reserved words. -/
def serializeSection (ctx : Ctx) (s : MachSection) : List Nat :=
  pad16 s.sectname ++ pad16 s.segname ++
    (if ctx.is64 then le64 s.addr ++ le64 s.size else le32 s.addr ++ le32 s.size) ++
    le32 s.offset ++ le32 s.align ++ le32 s.reloff ++ le32 s.nreloc ++ le32 s.flags ++
    (if ctx.is64 then le32 0 ++ le32 0 ++ le32 0 else le32 0 ++ le32 0)

/-- The symtab load command (`goblin::mach::load_command::SymtabCommand`);
`SymtabCommand::new()` fixes `cmd = LC_SYMTAB` and `cmdsize = 24`. -/
structure SymtabCommand where
  cmd : Nat
  cmdsize : Nat
  symoff : Nat
  nsyms : Nat
  stroff : Nat
  strsize : Nat
deriving Repr, DecidableEq

/-- A fresh symtab load command (`SymtabCommand::new`). -/
def SymtabCommand.new : SymtabCommand :=
  { cmd := 0x2, cmdsize := 24, symoff := 0, nsyms := 0, stroff := 0, strsize := 0 }

/-- Symtab load-command serialization: six 32-bit words, always little-endian
(the emitter passes `self.ctx.le`). -/
def serializeSymtabCommand (s : SymtabCommand) : List Nat :=
  le32 s.cmd ++ le32 s.cmdsize ++ le32 s.symoff ++ le32 s.nsyms ++
    le32 s.stroff ++ le32 s.strsize

/-- A symbol-table entry (`goblin::mach::symbols::Nlist`). -/
structure Nlist where
  n_strx : Nat
  n_type : Nat
  n_sect : Nat
  n_desc : Nat
  n_value : Nat
deriving Repr, DecidableEq

/-- Nlist serialization: `n_value` is 8 bytes in the 64-bit container and
4 bytes in the 32-bit one. -/
def serializeNlist (ctx : Ctx) (n : Nlist) : List Nat :=
  le32 n.n_strx ++ [n.n_type % 256] ++ [n.n_sect % 256] ++ le16 n.n_desc ++
    (if ctx.is64 then le64 n.n_value else le32 n.n_value)

/-- A relocation record (`goblin::mach::relocation::RelocationInfo`).
`r_address` holds the bit pattern of the `i32` field. -/
structure RelocationInfo where
  r_address : Nat
  r_info : Nat
deriving Repr, DecidableEq

/-- Relocation-record serialization: two 32-bit words, always little-endian. -/
def serializeReloc (r : RelocationInfo) : List Nat :=
  le32 r.r_address ++ le32 r.r_info

/-- Builder for a Mach-O `Nlist` symbol (`SymbolBuilder` in the source).
The source's `section` and `import` fields are named `sect` and `isImport`
here because those words are reserved in Lean. -/
structure SymbolBuilder where
  name : Nat
  sect : Option Nat
  global : Bool
  isImport : Bool
  offset : Nat
deriving Repr, DecidableEq

/-- Rust `SymbolBuilder::new(name)`. -/
def SymbolBuilder.new (name : Nat) : SymbolBuilder :=
  { name, sect := none, global := false, isImport := false, offset := 0 }

/-- Rust `SymbolBuilder::section(section_index)`. -/
def SymbolBuilder.section_ (b : SymbolBuilder) (sectionIndex : Nat) : SymbolBuilder :=
  { b with sect := some sectionIndex }

/-- Rust `SymbolBuilder::global(global)`. -/
def SymbolBuilder.global_ (b : SymbolBuilder) (global : Bool) : SymbolBuilder :=
  { b with global }

/-- Rust `SymbolBuilder::offset(offset)`. -/
def SymbolBuilder.offset_ (b : SymbolBuilder) (offset : Nat) : SymbolBuilder :=
  { b with offset }

/-- Rust `SymbolBuilder::get_offset()`. -/
def SymbolBuilder.get_offset (b : SymbolBuilder) : Nat := b.offset

/-- Rust `SymbolBuilder::import()`. -/
def SymbolBuilder.import_ (b : SymbolBuilder) : SymbolBuilder :=
  { b with isImport := true }

/-- Mach symbol-type constant `N_EXT`. -/
def N_EXT : Nat := 0x01

/-- Mach symbol-type constant `N_SECT`. -/
def N_SECT : Nat := 0x0e

/-- Mach symbol-type constant `N_UNDF`. -/
def N_UNDF : Nat := 0x00

/-- Mach section-ordinal constant `NO_SECT`. -/
def NO_SECT : Nat := 0

/-- Rust `SymbolBuilder::create`: finalize the builder into an `Nlist`.
`n_type &= !N_EXT` is byte negation on a `u8`, i.e. `n_type &&& 0xfe`. -/
def SymbolBuilder.create (b : SymbolBuilder) : Nlist :=
  let n_strx := b.name
  let n_sect := 0
  let n_type := N_UNDF
  let n_value := b.offset
  let n_desc := 0
  let n_type := if b.global then n_type ||| N_EXT else n_type &&& 0xfe
  let st := match b.sect with
    | some idx => (idx + 1, n_type ||| N_SECT)
    | none => (n_sect, n_type)
  let stv := if b.isImport then (NO_SECT, N_EXT, 0) else (st.1, st.2 ||| N_SECT, n_value)
  { n_strx, n_type := stv.2.1, n_sect := stv.1, n_desc, n_value := stv.2.2 }

/-- Relocation builder (`RelocationBuilder`). -/
structure RelocationBuilder where
  symbol : Nat
  relocation_offset : Nat
  absolute : Bool
  r_type : Nat
deriving Repr, DecidableEq

/-- Rust `RelocationBuilder::new(symbol, relocation_offset, r_type)`. -/
def RelocationBuilder.new (symbol relocation_offset r_type : Nat) : RelocationBuilder :=
  { symbol, relocation_offset, absolute := false, r_type }

/-- Rust `RelocationBuilder::create`: pack the bitfields into `r_info` and cast the
offset to the 32-bit `r_address`.  `self.symbol as u32` is `% 2^32`; the
shifted subfields are OR-ed exactly as in the source. -/
def RelocationBuilder.create (b : RelocationBuilder) : RelocationInfo :=
  let r_symbolnum : Nat := b.symbol % 4294967296
  let r_pcrel : Nat := (if b.absolute then 0 else 1) <<< 24
  let r_length : Nat := (if b.absolute then 3 else 2) <<< 25
  let r_extern : Nat := 1 <<< 27
  let r_type : Nat := (b.r_type <<< 28) % 4294967296
  let r_info := r_symbolnum ||| r_pcrel ||| r_length ||| r_extern ||| r_type
  { r_address := b.relocation_offset % 4294967296, r_info }

/-- Section builder (`SectionBuilder`). -/
structure SectionBuilder where
  addr : Nat
  align : Nat
  offset : Nat
  size : Nat
  sectname : Name
  segname : Name
deriving Repr, DecidableEq

/-- Rust `SectionBuilder::new(sectname, segname, size)`. -/
def SectionBuilder.new (sectname segname : Name) (size : Nat) : SectionBuilder :=
  { addr := 0, align := 4, offset := 0, size, sectname, segname }

/-- Rust `SectionBuilder::addr(addr)`. -/
def SectionBuilder.addr_ (b : SectionBuilder) (addr : Nat) : SectionBuilder :=
  { b with addr }

/-- Rust `SectionBuilder::offset(offset)`. -/
def SectionBuilder.offset_ (b : SectionBuilder) (offset : Nat) : SectionBuilder :=
  { b with offset }

/-- Rust `SectionBuilder::create`: materialize the section header
(`flags = 2147484672 = 0x80000400`, `reloff`/`nreloc` patched later). -/
def SectionBuilder.create (b : SectionBuilder) : MachSection :=
  { sectname := b.sectname, segname := b.segname, addr := b.addr, size := b.size,
    offset := b.offset, align := b.align, reloff := 0, nreloc := 0,
    flags := 2147484672 }

/-- Lookup in the ordered string interner (`DefaultStringInterner::get`):
the index of the first occurrence of `n`, if interned. -/
def internGet (st : List Name) (n : Name) : Option Nat :=
  match st with
  | [] => none
  | s :: rest => if s = n then some 0 else (internGet rest n).map (· + 1)

/-- Rust `DefaultStringInterner::get_or_intern`: the updated interner and the
index of `n`; a new string receives the next sequential index. -/
def getOrIntern (st : List Name) (n : Name) : List Name × Nat :=
  match internGet st n with
  | some i => (st, i)
  | none => (st ++ [n], st.length)

/-- Ordered-map lookup (`OrderMap::get`) on an insertion-ordered
association list with unique keys. -/
def alistGet {α : Type} (l : List (Nat × α)) (k : Nat) : Option α :=
  match l with
  | [] => none
  | p :: rest => if p.1 = k then some p.2 else alistGet rest k

/-- The Mach symbol table (`SymbolTable`): insertion-ordered symbol builders
and ordinals keyed by interned-string index, the interner itself, and the
running serialized string-table size. -/
structure SymbolTable where
  symbols : List (Nat × SymbolBuilder)
  strtable : List Name
  indexes : List (Nat × Nat)
  strtable_size : Nat
deriving Repr, DecidableEq

/-- The kind of symbol being inserted (`SymbolType`); the source's `section`
field is named `sect`. -/
inductive SymbolType where
  | Defined (sect : Nat) (offset : Nat) (global : Bool)
  | Undefined
deriving Repr, DecidableEq

/-- Rust `SymbolTable::new()`: the empty string is interned first,
`strtable_size` starts at 1 for the leading NUL. -/
def SymbolTable.new : SymbolTable :=
  { symbols := [], strtable := [[]], indexes := [], strtable_size := 1 }

/-- Rust `SymbolTable::len()`. -/
def SymbolTable.len (t : SymbolTable) : Nat := t.symbols.length

/-- Rust `SymbolTable::sizeof_strtable()`. -/
def SymbolTable.sizeof_strtable (t : SymbolTable) : Nat := t.strtable_size

/-- Rust `SymbolTable::offset(symbol_name)`: recorded in-section offset. -/
def SymbolTable.offset (t : SymbolTable) (symbolName : Name) : Option Nat :=
  (internGet t.strtable symbolName).bind fun idx =>
    (alistGet t.symbols idx).map SymbolBuilder.get_offset

/-- Rust `SymbolTable::index(symbol_name)`: ordinal in the symbol table. -/
def SymbolTable.index (t : SymbolTable) (symbolName : Name) : Option Nat :=
  (internGet t.strtable symbolName).bind fun idx => alistGet t.indexes idx

/-- Rust `SymbolTable::insert(symbol_name, kind)`: intern the name; if it is new,
record a builder at the current `strtable_size`, append its ordinal, and grow
`strtable_size` by `len + 2` (NUL terminator plus `_` prefix). -/
def SymbolTable.insert (t : SymbolTable) (symbolName : Name) (kind : SymbolType) :
    SymbolTable :=
  let name_len := symbolName.length + 1 + 1
  let last_index := t.strtable.length
  let gi := getOrIntern t.strtable symbolName
  if gi.2 = last_index then
    let builder := match kind with
      | .Undefined => ((SymbolBuilder.new t.strtable_size).global_ true).import_
      | .Defined sect offset global =>
          (((SymbolBuilder.new t.strtable_size).global_ global).offset_ offset).section_ sect
    { symbols := t.symbols ++ [(gi.2, builder)]
      strtable := gi.1
      indexes := t.indexes ++ [(gi.2, t.symbols.length)]
      strtable_size := t.strtable_size + name_len }
  else
    { t with strtable := gi.1 }

/-- An artifact definition (input interface): a named byte payload with
`function` and `global` properties. -/
structure Definition where
  name : Name
  data : List Nat
  function : Bool
  global : Bool
deriving Repr, DecidableEq

/-- Target declaration of a link (`Decl`); payload fields of the Rust enum
variants play no role in the emitter's match. -/
inductive Decl where
  | Function
  | Data
  | CString
  | FunctionImport
  | DataImport
deriving Repr, DecidableEq

/-- An artifact link (input interface): `{from.name, to.name, at, to.decl}`.
`from`, `to` and `at` are reserved in Lean, hence the field names. -/
structure Link where
  fromName : Name
  toName : Name
  atOff : Nat
  toDecl : Decl
deriving Repr, DecidableEq

/-- The artifact consumed by the backend: its target, its definitions in
insertion order, its import names, and its links. -/
structure Artifact where
  target : Target
  defs : List Definition
  imports : List Name
  links : List Link
deriving Repr, DecidableEq

/-- Section index constant `CODE_SECTION_INDEX`. -/
def CODE_SECTION_INDEX : Nat := 0

/-- Section index constant `DATA_SECTION_INDEX`. -/
def DATA_SECTION_INDEX : Nat := 1

/-- The byte string `__text`. -/
def textSectName : Name := [0x5f, 0x5f, 0x74, 0x65, 0x78, 0x74]

/-- The byte string `__TEXT`. -/
def textSegName : Name := [0x5f, 0x5f, 0x54, 0x45, 0x58, 0x54]

/-- The byte string `__data`. -/
def dataSectName : Name := [0x5f, 0x5f, 0x64, 0x61, 0x74, 0x61]

/-- The byte string `__DATA`. -/
def dataSegName : Name := [0x5f, 0x5f, 0x44, 0x41, 0x54, 0x41]

/-- The definition loop inside `SegmentBuilder::build_section`: insert one
`Defined` symbol per definition at the running `symbol_offset`, accumulating
`local_size`.  Returns the updated table, `symbol_offset`, and `local_size`. -/
def sectionLoop (sect : Nat) (defs : List Definition) (t : SymbolTable)
    (symOff localSize : Nat) : SymbolTable × Nat × Nat :=
  match defs with
  | [] => (t, symOff, localSize)
  | d :: rest =>
    sectionLoop sect rest
      (t.insert d.name (.Defined sect symOff d.global))
      (symOff + d.data.length) (localSize + d.data.length)

/-- Rust `SegmentBuilder::build_section`: run the definition loop, freeze the
section at the incoming file offset and vm address, then advance both by the
section's size.  Returns `(symtab, section, offset, addr, symbol_offset)`. -/
def build_section (t : SymbolTable) (sectname segname : Name)
    (offset addr symOff : Nat) (sect : Nat) (defs : List Definition) :
    SymbolTable × SectionBuilder × Nat × Nat × Nat :=
  let r := sectionLoop sect defs t symOff 0
  let localSize := r.2.2
  let sb := ((SectionBuilder.new sectname segname localSize).offset_ offset).addr_ addr
  (r.1, sb, offset + localSize, addr + localSize, r.2.1)

/-- The Mach-O program segment under construction (`SegmentBuilder`): its two
sections, the running `offset` field, and the total data `size`. -/
structure SegmentBuilder where
  sections : SectionBuilder × SectionBuilder
  offset : Nat
  size : Nat
deriving Repr, DecidableEq

/-- Rust `SegmentBuilder::NSECTIONS`. -/
def SegmentBuilder.NSECTIONS : Nat := 2

/-- Rust `SegmentBuilder::load_command_size(ctx)`. -/
def SegmentBuilder.load_command_size (ctx : Ctx) : Nat :=
  segmentSize ctx + SegmentBuilder.NSECTIONS * sectionSize ctx

/-- Rust `SegmentBuilder::new`: build the text section from the code definitions
and the data section from the data definitions — the `addr` cursor is the
segment's `size` accumulator and `symbol_offset` is shared between the two
sections — then insert every import as `Undefined`.  Returns the symbol
table together with the segment. -/
def SegmentBuilder.new (ctx : Ctx) (imports : List Name)
    (code data : List Definition) (t : SymbolTable) :
    SymbolTable × SegmentBuilder :=
  let offset := headerSize ctx
  let size := 0
  let symbol_offset := 0
  let rt := build_section t textSectName textSegName offset size symbol_offset
    CODE_SECTION_INDEX code
  let rd := build_section rt.1 dataSectName dataSegName rt.2.2.1 rt.2.2.2.1 rt.2.2.2.2
    DATA_SECTION_INDEX data
  let t2 := imports.foldl (fun acc n => acc.insert n .Undefined) rd.1
  (t2, { sections := (rt.2.1, rd.2.1), offset := rd.2.2.1, size := rd.2.2.2.1 })

/-- Relocation constant `X86_64_RELOC_SIGNED`. -/
def X86_64_RELOC_SIGNED : Nat := 1

/-- Relocation constant `X86_64_RELOC_BRANCH`. -/
def X86_64_RELOC_BRANCH : Nat := 2

/-- Relocation constant `X86_64_RELOC_GOT_LOAD`. -/
def X86_64_RELOC_GOT_LOAD : Nat := 3

/-- The relocation type chosen for a link's target declaration
(the `match link.to.decl` in `build_relocations`). -/
def relocTypeOf : Decl → Nat
  | .Function => X86_64_RELOC_BRANCH
  | .Data => X86_64_RELOC_SIGNED
  | .CString => X86_64_RELOC_SIGNED
  | .FunctionImport => X86_64_RELOC_BRANCH
  | .DataImport => X86_64_RELOC_GOT_LOAD

/-- One iteration of the `build_relocations` loop: look up the source
symbol's offset and the target symbol's ordinal; if both are present, build
the record at `base_offset + link.at`, otherwise log and skip (`none`). -/
def linkStep (t : SymbolTable) (l : Link) : Option RelocationInfo :=
  match t.offset l.fromName, t.index l.toName with
  | some base_offset, some to_symbol_index =>
    some ((RelocationBuilder.new to_symbol_index (base_offset + l.atOff)
      (relocTypeOf l.toDecl)).create)
  | _, _ => none

/-- Rust `build_relocations`: every link's record is pushed into the single text
bucket; links with a missing symbol are dropped. -/
def build_relocations (a : Artifact) (t : SymbolTable) : List (List RelocationInfo) :=
  [a.links.filterMap (linkStep t)]

/-- The Mach-O object under construction (`Mach`). -/
structure Mach where
  ctx : Ctx
  target : Target
  symtab : SymbolTable
  segment : SegmentBuilder
  relocations : List (List RelocationInfo)
  code : List Definition
  data : List Definition
deriving Repr, DecidableEq

/-- Rust `Mach::new(artifact)`: partition the definitions into code and data by
the `function` property, build the segment and symbol table, then the
relocations.  The `Ctx` is derived from the artifact's target outside the
embedded file, so it is passed explicitly. -/
def Mach.new (ctx : Ctx) (a : Artifact) : Mach :=
  let part := a.defs.partition (·.function)
  let ts := SegmentBuilder.new ctx a.imports part.1 part.2 SymbolTable.new
  let relocations := build_relocations a ts.1
  { ctx, target := a.target, symtab := ts.1, segment := ts.2, relocations,
    code := part.1, data := part.2 }

/-- Rust `Mach::header(sizeofcmds)`: `Header::new(ctx)` sets the magic for the
container and zeroes the rest; the emitter then fills `MH_OBJECT` (1),
`MH_SUBSECTIONS_VIA_SYMBOLS` (0x2000), the CPU fields, `ncmds = 2` and
`sizeofcmds`. -/
def Mach.header (m : Mach) (sizeofcmds : Nat) : MachHeader :=
  { magic := if m.ctx.is64 then 0xfeedfacf else 0xfeedface
    cputype := cpuTypeOf m.target
    cpusubtype := 3
    filetype := 1
    ncmds := 2
    sizeofcmds := sizeofcmds
    flags := 0x2000 }

/-- Rust `sizeof_load_commands` in `Mach::write`: the segment load command plus
the 24-byte symtab command. -/
def sizeofLoadCommands (ctx : Ctx) : Nat :=
  SegmentBuilder.load_command_size ctx + SymtabCommand.new.cmdsize

/-- Rust `symtable_offset` in `Mach::write`. -/
def Mach.symtableOffset (m : Mach) : Nat :=
  m.segment.offset + sizeofLoadCommands m.ctx

/-- Rust `strtable_offset` in `Mach::write`. -/
def Mach.strtableOffset (m : Mach) : Nat :=
  m.symtableOffset + m.symtab.len * nlistSize m.ctx

/-- Rust `relocation_offset_start` in `Mach::write`. -/
def Mach.relocationOffsetStart (m : Mach) : Nat :=
  m.strtableOffset + m.symtab.sizeof_strtable

/-- Rust `first_section_offset` in `Mach::write`. -/
def Mach.firstSectionOffset (m : Mach) : Nat :=
  headerSize m.ctx + sizeofLoadCommands m.ctx

/-- The section-marshalling loop in `Mach::write`: each section header gets
its real file offset from a running cursor, and a section whose index has a
relocation bucket gets `reloff`/`nreloc` patched from the running relocation
cursor. -/
def patchSections (relocations : List (List RelocationInfo)) :
    List SectionBuilder → Nat → Nat → Nat → List MachSection
  | [], _, _, _ => []
  | sb :: rest, idx, secOff, relOff =>
    let s0 := sb.create
    let s1 := { s0 with offset := secOff }
    let secOffNext := secOff + s1.size
    match relocations[idx]? with
    | some bucket =>
      let s2 := { s1 with nreloc := bucket.length, reloff := relOff }
      s2 :: patchSections relocations rest (idx + 1) secOffNext
        (relOff + bucket.length * SIZEOF_RELOCATION_INFO)
    | none => s1 :: patchSections relocations rest (idx + 1) secOffNext relOff

/-- Rust `raw_sections` in `Mach::write`: the two patched section headers,
serialized in order. -/
def Mach.rawSections (m : Mach) : List Nat :=
  (patchSections m.relocations [m.segment.sections.1, m.segment.sections.2] 0
    m.firstSectionOffset m.relocationOffsetStart).flatMap (serializeSection m.ctx)

/-- The segment load command built in `Mach::write`: `Segment::new(ctx,
raw_sections)` zero-initializes the fields and sets `cmd` for the container
and `cmdsize = size_with + raw_sections.len()`; the emitter then sets
`nsects`, the protections, sizes and `fileoff`. -/
def Mach.segmentLoadCommand (m : Mach) : MachSegment :=
  { cmd := if m.ctx.is64 then 0x19 else 0x1
    cmdsize := segmentSize m.ctx + m.rawSections.length
    segname := []
    vmaddr := 0
    vmsize := m.segment.size
    fileoff := m.firstSectionOffset
    filesize := m.segment.size
    maxprot := 7
    initprot := 7
    nsects := SegmentBuilder.NSECTIONS
    flags := 0 }

/-- The symtab load command as serialized by `Mach::write` (fields set after
the layout assertion). -/
def Mach.symtabLoadCommand (m : Mach) : SymtabCommand :=
  { SymtabCommand.new with
    nsyms := m.symtab.len
    symoff := m.symtableOffset
    stroff := m.strtableOffset
    strsize := m.symtab.sizeof_strtable }

/-- The serialized string table: a leading NUL, then for every interned
string after slot 0 an underscore, the name bytes, and a NUL. -/
def strtabBytes (strtable : List Name) : List Nat :=
  0 :: (strtable.drop 1).flatMap (fun s => 0x5f :: (s ++ [0]))

/-- The full byte image `Mach::write` emits: header, segment load command
with inline section headers, symtab load command, code payloads, data
payloads, Nlist records, string table, relocation records, one trailing
NUL. -/
def Mach.machBytes (m : Mach) : List Nat :=
  serializeHeader m.ctx (m.header (sizeofLoadCommands m.ctx)) ++
    serializeSegment m.ctx m.segmentLoadCommand ++
    m.rawSections ++
    serializeSymtabCommand m.symtabLoadCommand ++
    m.code.flatMap (·.data) ++
    m.data.flatMap (·.data) ++
    m.symtab.symbols.flatMap (fun p => serializeNlist m.ctx p.2.create) ++
    strtabBytes m.symtab.strtable ++
    m.relocations.flatMap (fun bucket => bucket.flatMap serializeReloc) ++
    [0]

/-- Rust `Mach::write`: the layout assertion
`assert_eq!(symtable_offset, segment.offset + segment_lc.cmdsize +
symtab_lc.cmdsize)` guards the emission; a failed assertion aborts instead
of producing bytes. -/
def Mach.write (m : Mach) : Option (List Nat) :=
  if m.symtableOffset =
      m.segment.offset + m.segmentLoadCommand.cmdsize + m.symtabLoadCommand.cmdsize
  then some m.machBytes
  else none

/-- Rust `Mach::to_bytes(artifact)` (the `Object` impl): build and write. -/
def Mach.to_bytes (ctx : Ctx) (a : Artifact) : Option (List Nat) :=
  (Mach.new ctx a).write

/-- Total number of relocation records across all buckets. -/
def Mach.nrelocs (m : Mach) : Nat :=
  (m.relocations.map List.length).sum

/-- One serialized string-table entry: underscore, name bytes, NUL. -/
def strEntry (s : Name) : List Nat := 0x5f :: (s ++ [0])

/-- Well-formedness of a symbol table reachable by `insert` calls:
`strtable_size` is the serialized string-table size, every symbol's key is a
live interned index, every recorded `strtable_offset` points at the
underscore that starts its own serialized name, and every ordinal is dense
below the symbol count. -/
def WF (t : SymbolTable) : Prop :=
  t.strtable_size = 1 + ((t.strtable.drop 1).map (fun s => s.length + 2)).sum ∧
  1 ≤ t.strtable.length ∧
  (∀ p ∈ t.symbols, p.1 < t.strtable.length ∧ p.2.name < t.strtable_size ∧
    (strtabBytes t.strtable)[p.2.name]? = some 0x5f) ∧
  (∀ p ∈ t.indexes, p.1 < t.strtable.length ∧ p.2 < t.symbols.length)

/-- The builder `insert` records for a fresh name with the given kind. -/
def insertBuilder (kind : SymbolType) (sz : Nat) : SymbolBuilder :=
  match kind with
  | .Undefined => ((SymbolBuilder.new sz).global_ true).import_
  | .Defined sect offset global =>
      (((SymbolBuilder.new sz).global_ global).offset_ offset).section_ sect

/-- Sum of the payload lengths of a definition list. -/
def sumLens (l : List Definition) : Nat := (l.map (·.data.length)).sum

/-- Everything `Mach::write` emits before the string table. -/
def Mach.prefixBytes (m : Mach) : List Nat :=
  serializeHeader m.ctx (m.header (sizeofLoadCommands m.ctx)) ++
    serializeSegment m.ctx m.segmentLoadCommand ++
    m.rawSections ++
    serializeSymtabCommand m.symtabLoadCommand ++
    m.code.flatMap (·.data) ++
    m.data.flatMap (·.data) ++
    m.symtab.symbols.flatMap (fun p => serializeNlist m.ctx p.2.create)

/-- Apply a sequence of `SymbolTable::insert` calls to a fresh table. -/
def applyInserts (ops : List (Name × SymbolType)) : SymbolTable :=
  ops.foldl (fun t op => t.insert op.1 op.2) SymbolTable.new

/-- The 64-bit container context. -/
def ctx64 : Ctx := ⟨true⟩

/-- An empty artifact (spec scenario S1). -/
def artEmpty : Artifact := ⟨.X86_64, [], [], []⟩

/-- The definition of a 4-byte global function `main` (spec scenario S2). -/
def defMain : Definition := ⟨[109, 97, 105, 110], [144, 144, 144, 195], true, true⟩

/-- An artifact with one global function `main` (spec scenario S2). -/
def artMain : Artifact := ⟨.X86_64, [defMain], [], []⟩

/-- A 2-byte function `f` (spec scenario S3). -/
def defF : Definition := ⟨[102], [235, 254], true, true⟩

/-- The link from `f` to the import `g` at offset 1 (spec scenario S3). -/
def linkFG : Link := ⟨[102], [103], 1, .FunctionImport⟩

/-- An artifact with function `f` calling import `g` (spec scenario S3). -/
def artS3 : Artifact := ⟨.X86_64, [defF], [[103]], [linkFG]⟩

/-- An 8-byte data definition `d` (spec scenario S4). -/
def defD : Definition := ⟨[100], [1, 2, 3, 4, 5, 6, 7, 8], false, false⟩

/-- An artifact with function `f`, data `d`, and a link from `d` to `f`
(spec scenario S4). -/
def artS4 : Artifact := ⟨.X86_64, [defF, defD], [], [⟨[100], [102], 0, .Function⟩]⟩

/-- A link whose target name `h` is nowhere in the artifact. -/
def linkMissing : Link := ⟨[102], [104], 0, .Function⟩

/-- An artifact with a dangling link (missing target symbol). -/
def artMissing : Artifact := ⟨.X86_64, [defF], [], [linkMissing]⟩

instance WF.decidable (t : SymbolTable) : Decidable (WF t) := by
  unfold WF
  exact inferInstance

theorem le16_length (n : Nat) : (le16 n).length = 2 := rfl

theorem le32_length (n : Nat) : (le32 n).length = 4 := rfl

theorem le64_length (n : Nat) : (le64 n).length = 8 := rfl

theorem pad16_length (s : List Nat) : (pad16 s).length = 16 := by
  simp [pad16, List.length_take]
  omega

theorem serializeHeader_length (ctx : Ctx) (h : MachHeader) :
    (serializeHeader ctx h).length = headerSize ctx := by
  cases ctx with
  | mk is64 => cases is64 <;> simp [serializeHeader, headerSize, le32]

theorem serializeSegment_length (ctx : Ctx) (s : MachSegment) :
    (serializeSegment ctx s).length = segmentSize ctx := by
  cases ctx with
  | mk is64 =>
    cases is64 <;>
      simp [serializeSegment, segmentSize, le32, le64, pad16_length]

theorem serializeSection_length (ctx : Ctx) (s : MachSection) :
    (serializeSection ctx s).length = sectionSize ctx := by
  cases ctx with
  | mk is64 =>
    cases is64 <;>
      simp [serializeSection, sectionSize, le32, le64, pad16_length]

theorem serializeSymtabCommand_length (s : SymtabCommand) :
    (serializeSymtabCommand s).length = 24 := by
  simp [serializeSymtabCommand, le32]

theorem serializeNlist_length (ctx : Ctx) (n : Nlist) :
    (serializeNlist ctx n).length = nlistSize ctx := by
  cases ctx with
  | mk is64 =>
    cases is64 <;> simp [serializeNlist, nlistSize, le16, le32, le64]

theorem serializeReloc_length (r : RelocationInfo) :
    (serializeReloc r).length = 8 := rfl

theorem strtabBytes_eq (st : List Name) :
    strtabBytes st = 0 :: (st.drop 1).flatMap strEntry := rfl

theorem flatMap_strEntry_length (l : List Name) :
    (l.flatMap strEntry).length = (l.map (fun s => s.length + 2)).sum := by
  induction l with
  | nil => rfl
  | cons s rest ih => simp [strEntry, ih]; omega

theorem internGet_lt_length {st : List Name} {n : Name} {i : Nat}
    (h : internGet st n = some i) : i < st.length := by
  induction st generalizing i with
  | nil => simp [internGet] at h
  | cons s rest ih =>
    by_cases hs : s = n
    · simp [internGet, hs] at h
      simp only [List.length_cons]
      omega
    · simp [internGet, hs] at h
      obtain ⟨j, hj, rfl⟩ := h
      have := ih hj
      simp only [List.length_cons]
      omega

theorem internGet_append_of_some {st : List Name} {m : Name} {i : Nat}
    (x : Name) (h : internGet st m = some i) :
    internGet (st ++ [x]) m = some i := by
  induction st generalizing i with
  | nil => simp [internGet] at h
  | cons s rest ih =>
    by_cases hs : s = m
    · simp [internGet, hs] at h ⊢
      omega
    · simp [internGet, hs] at h ⊢
      obtain ⟨j, hj, rfl⟩ := h
      exact ⟨j, ih hj, rfl⟩

theorem internGet_append_none_of_ne {st : List Name} {m : Name}
    (x : Name) (h : internGet st m = none) (hne : m ≠ x) :
    internGet (st ++ [x]) m = none := by
  induction st with
  | nil =>
    simp [internGet]
    exact fun h2 => hne h2.symm
  | cons s rest ih =>
    by_cases hs : s = m
    · simp [internGet, hs] at h
    · simp [internGet, hs] at h ⊢
      exact ih h

theorem internGet_append_self {st : List Name} {x : Name}
    (h : internGet st x = none) :
    internGet (st ++ [x]) x = some st.length := by
  induction st with
  | nil => simp [internGet]
  | cons s rest ih =>
    by_cases hs : s = x
    · simp [internGet, hs] at h
    · simp [internGet, hs] at h ⊢
      exact ih h

theorem alistGet_mem {α : Type} {l : List (Nat × α)} {k : Nat} {v : α}
    (h : alistGet l k = some v) : (k, v) ∈ l := by
  induction l with
  | nil => simp [alistGet] at h
  | cons p rest ih =>
    by_cases hp : p.1 = k
    · simp [alistGet, hp] at h
      subst h
      subst hp
      exact List.mem_cons_self p rest
    · simp [alistGet, hp] at h
      exact List.mem_cons_of_mem _ (ih h)

theorem alistGet_append_of_ne {α : Type} {l : List (Nat × α)} {k k' : Nat}
    (v : α) (h : k' ≠ k) : alistGet (l ++ [(k, v)]) k' = alistGet l k' := by
  induction l with
  | nil =>
    simp [alistGet]
    exact fun h2 => h h2.symm
  | cons p rest ih =>
    by_cases hp : p.1 = k'
    · simp [alistGet, hp]
    · simp [alistGet, hp, ih]

theorem alistGet_none_of_lt {α : Type} {l : List (Nat × α)} {k : Nat}
    (h : ∀ p ∈ l, p.1 < k) : alistGet l k = none := by
  induction l with
  | nil => rfl
  | cons p rest ih =>
    have h1 := h p (List.mem_cons_self p rest)
    simp [alistGet, Nat.ne_of_lt h1]
    exact ih fun q hq => h q (List.mem_cons_of_mem _ hq)

theorem alistGet_append_self {α : Type} {l : List (Nat × α)} {k : Nat}
    (v : α) (h : alistGet l k = none) : alistGet (l ++ [(k, v)]) k = some v := by
  induction l with
  | nil => simp [alistGet]
  | cons p rest ih =>
    by_cases hp : p.1 = k
    · simp [alistGet, hp] at h
    · simp [alistGet, hp] at h ⊢
      exact ih h

theorem WF_new : WF SymbolTable.new := by
  refine ⟨rfl, by simp [SymbolTable.new], ?_, ?_⟩ <;> simp [SymbolTable.new]

theorem strtabBytes_length_of_WF {t : SymbolTable} (h : WF t) :
    (strtabBytes t.strtable).length = t.strtable_size := by
  obtain ⟨hsz, _, _, _⟩ := h
  rw [strtabBytes_eq, List.length_cons, flatMap_strEntry_length]
  omega

theorem insert_of_found {t : SymbolTable} {nm : Name} {i : Nat}
    (kind : SymbolType) (h : internGet t.strtable nm = some i) :
    t.insert nm kind = t := by
  have hlt := internGet_lt_length h
  simp [SymbolTable.insert, getOrIntern, h, Nat.ne_of_lt hlt]

theorem insert_of_fresh {t : SymbolTable} {nm : Name}
    (kind : SymbolType) (h : internGet t.strtable nm = none) :
    t.insert nm kind =
      { symbols := t.symbols ++ [(t.strtable.length, insertBuilder kind t.strtable_size)]
        strtable := t.strtable ++ [nm]
        indexes := t.indexes ++ [(t.strtable.length, t.symbols.length)]
        strtable_size := t.strtable_size + (nm.length + 2) } := by
  cases kind <;> simp [SymbolTable.insert, getOrIntern, h, insertBuilder]

theorem insertBuilder_name (kind : SymbolType) (sz : Nat) :
    (insertBuilder kind sz).name = sz := by
  cases kind <;> rfl

theorem strtabBytes_append {st : List Name} (n : Name) (h : 1 ≤ st.length) :
    strtabBytes (st ++ [n]) = strtabBytes st ++ strEntry n := by
  cases st with
  | nil => simp at h
  | cons s rest => simp [strtabBytes_eq]

theorem drop1_sum_append (st : List Name) (nm : Name) (h : 1 ≤ st.length) :
    (((st ++ [nm]).drop 1).map (fun s => s.length + 2)).sum =
      ((st.drop 1).map (fun s => s.length + 2)).sum + (nm.length + 2) := by
  cases st with
  | nil => simp at h
  | cons s rest => simp

theorem WF_insert {t : SymbolTable} (nm : Name) (kind : SymbolType)
    (h : WF t) : WF (t.insert nm kind) := by
  obtain ⟨hsz, hne, hsyms, hidx⟩ := h
  cases hget : internGet t.strtable nm with
  | some i => rw [insert_of_found kind hget]; exact ⟨hsz, hne, hsyms, hidx⟩
  | none =>
    have hlen : (strtabBytes t.strtable).length = t.strtable_size :=
      strtabBytes_length_of_WF ⟨hsz, hne, hsyms, hidx⟩
    have hbytes := strtabBytes_append nm hne
    rw [insert_of_fresh kind hget]
    refine ⟨?_, ?_, ?_, ?_⟩
    · dsimp only
      rw [drop1_sum_append t.strtable nm hne]
      omega
    · dsimp only
      rw [List.length_append]
      omega
    · intro p hp
      dsimp only at hp ⊢
      rw [List.mem_append] at hp
      rcases hp with hp | hp
      · obtain ⟨hk, hname, hbyte⟩ := hsyms p hp
        have hlt : p.2.name < (strtabBytes t.strtable).length := by omega
        refine ⟨by rw [List.length_append]; omega, by omega, ?_⟩
        rw [hbytes, List.getElem?_append, if_pos hlt]
        exact hbyte
      · rw [List.mem_singleton] at hp
        subst hp
        refine ⟨by rw [List.length_append]; simp, ?_, ?_⟩
        · rw [insertBuilder_name]
          omega
        · rw [insertBuilder_name, hbytes, ← hlen,
            List.getElem?_append_right (Nat.le_refl _)]
          simp [strEntry]
    · intro p hp
      dsimp only at hp ⊢
      rw [List.mem_append] at hp
      rcases hp with hp | hp
      · obtain ⟨hk, hv⟩ := hidx p hp
        rw [List.length_append, List.length_append]
        exact ⟨by omega, by simp; omega⟩
      · rw [List.mem_singleton] at hp
        subst hp
        rw [List.length_append, List.length_append]
        exact ⟨by simp, by simp⟩

theorem insertBuilder_offset_undefined (sz : Nat) :
    (insertBuilder .Undefined sz).offset = 0 := rfl

theorem insertBuilder_offset_defined (sect offset : Nat) (global : Bool) (sz : Nat) :
    (insertBuilder (.Defined sect offset global) sz).offset = offset := rfl

theorem symbols_keys_lt {t : SymbolTable} (h : WF t) :
    ∀ p ∈ t.symbols, p.1 < t.strtable.length :=
  fun p hp => (h.2.2.1 p hp).1

theorem offset_insert_fresh {t : SymbolTable} {nm : Name}
    (kind : SymbolType) (hWF : WF t) (h : internGet t.strtable nm = none) :
    (t.insert nm kind).offset nm = some (insertBuilder kind t.strtable_size).offset := by
  rw [insert_of_fresh kind h]
  unfold SymbolTable.offset
  dsimp only
  rw [internGet_append_self h]
  rw [Option.some_bind]
  rw [alistGet_append_self _ (alistGet_none_of_lt (symbols_keys_lt hWF))]
  rfl

theorem index_insert_fresh {t : SymbolTable} {nm : Name}
    (kind : SymbolType) (hWF : WF t) (h : internGet t.strtable nm = none) :
    (t.insert nm kind).index nm = some t.symbols.length := by
  rw [insert_of_fresh kind h]
  unfold SymbolTable.index
  dsimp only
  rw [internGet_append_self h]
  rw [Option.some_bind]
  exact alistGet_append_self _
    (alistGet_none_of_lt fun p hp => (hWF.2.2.2 p hp).1)

theorem offset_insert_preserved {t : SymbolTable} {m : Name} {v : Nat}
    (nm : Name) (kind : SymbolType) (hWF : WF t) (hm : t.offset m = some v) :
    (t.insert nm kind).offset m = some v := by
  unfold SymbolTable.offset at hm
  cases hget : internGet t.strtable m with
  | none => rw [hget] at hm; simp at hm
  | some i =>
    rw [hget, Option.some_bind] at hm
    cases hfr : internGet t.strtable nm with
    | some k => rw [insert_of_found kind hfr]; unfold SymbolTable.offset
                rw [hget, Option.some_bind]; exact hm
    | none =>
      rw [insert_of_fresh kind hfr]
      unfold SymbolTable.offset
      dsimp only
      rw [internGet_append_of_some nm hget, Option.some_bind]
      rw [alistGet_append_of_ne _ (Nat.ne_of_lt (internGet_lt_length hget))]
      exact hm

theorem index_insert_preserved {t : SymbolTable} {m : Name} {v : Nat}
    (nm : Name) (kind : SymbolType) (hWF : WF t) (hm : t.index m = some v) :
    (t.insert nm kind).index m = some v := by
  unfold SymbolTable.index at hm
  cases hget : internGet t.strtable m with
  | none => rw [hget] at hm; simp at hm
  | some i =>
    rw [hget, Option.some_bind] at hm
    cases hfr : internGet t.strtable nm with
    | some k => rw [insert_of_found kind hfr]; unfold SymbolTable.index
                rw [hget, Option.some_bind]; exact hm
    | none =>
      rw [insert_of_fresh kind hfr]
      unfold SymbolTable.index
      dsimp only
      rw [internGet_append_of_some nm hget, Option.some_bind]
      rw [alistGet_append_of_ne _ (Nat.ne_of_lt (internGet_lt_length hget))]
      exact hm

theorem index_some_lt_len {t : SymbolTable} {m : Name} {j : Nat}
    (hWF : WF t) (h : t.index m = some j) : j < t.len := by
  unfold SymbolTable.index at h
  cases hget : internGet t.strtable m with
  | none => rw [hget] at h; simp at h
  | some i =>
    rw [hget, Option.some_bind] at h
    exact (hWF.2.2.2 _ (alistGet_mem h)).2

theorem sectionLoop_WF (sect : Nat) (defs : List Definition)
    (t : SymbolTable) (so ls : Nat) (h : WF t) :
    WF (sectionLoop sect defs t so ls).1 := by
  induction defs generalizing t so ls with
  | nil => exact h
  | cons d rest ih => exact ih _ _ _ (WF_insert _ _ h)

theorem foldl_insert_WF (imports : List Name) (t : SymbolTable) (h : WF t) :
    WF (imports.foldl (fun acc n => acc.insert n .Undefined) t) := by
  induction imports generalizing t with
  | nil => exact h
  | cons n rest ih => exact ih _ (WF_insert _ _ h)

theorem sectionLoop_symOff (sect : Nat) (defs : List Definition)
    (t : SymbolTable) (so ls : Nat) :
    (sectionLoop sect defs t so ls).2.1 = so + sumLens defs := by
  induction defs generalizing t so ls with
  | nil => simp [sectionLoop, sumLens]
  | cons d rest ih =>
    rw [sectionLoop, ih]
    simp [sumLens]
    omega

theorem sectionLoop_localSize (sect : Nat) (defs : List Definition)
    (t : SymbolTable) (so ls : Nat) :
    (sectionLoop sect defs t so ls).2.2 = ls + sumLens defs := by
  induction defs generalizing t so ls with
  | nil => simp [sectionLoop, sumLens]
  | cons d rest ih =>
    rw [sectionLoop, ih]
    simp [sumLens]
    omega

theorem segment_new_symtab_WF (ctx : Ctx) (imports : List Name)
    (code data : List Definition) (t : SymbolTable) (h : WF t) :
    WF (SegmentBuilder.new ctx imports code data t).1 := by
  unfold SegmentBuilder.new build_section
  exact foldl_insert_WF _ _ (sectionLoop_WF _ _ _ _ _ (sectionLoop_WF _ _ _ _ _ h))

theorem machWF (ctx : Ctx) (a : Artifact) : WF (Mach.new ctx a).symtab := by
  unfold Mach.new
  exact segment_new_symtab_WF _ _ _ _ _ WF_new

theorem segment_new_size (ctx : Ctx) (imports : List Name)
    (code data : List Definition) (t : SymbolTable) :
    (SegmentBuilder.new ctx imports code data t).2.size = sumLens code + sumLens data := by
  unfold SegmentBuilder.new build_section
  dsimp only
  rw [sectionLoop_localSize, sectionLoop_localSize]
  omega

theorem segment_new_offset (ctx : Ctx) (imports : List Name)
    (code data : List Definition) (t : SymbolTable) :
    (SegmentBuilder.new ctx imports code data t).2.offset =
      headerSize ctx + sumLens code + sumLens data := by
  unfold SegmentBuilder.new build_section
  dsimp only
  rw [sectionLoop_localSize, sectionLoop_localSize]
  omega

theorem mach_segment_offset (ctx : Ctx) (a : Artifact) :
    (Mach.new ctx a).segment.offset = headerSize ctx + (Mach.new ctx a).segment.size := by
  unfold Mach.new
  dsimp only
  rw [segment_new_offset, segment_new_size]
  omega

theorem patchSections_length (rl : List (List RelocationInfo))
    (sbs : List SectionBuilder) (idx so ro : Nat) :
    (patchSections rl sbs idx so ro).length = sbs.length := by
  induction sbs generalizing idx so ro with
  | nil => rfl
  | cons sb rest ih =>
    unfold patchSections
    cases rl[idx]? <;> simp [ih]

theorem flatMap_serializeSection_length (ctx : Ctx) (l : List MachSection) :
    (l.flatMap (serializeSection ctx)).length = l.length * sectionSize ctx := by
  induction l with
  | nil => simp
  | cons s rest ih =>
    simp only [List.flatMap_cons, List.length_append, ih,
      serializeSection_length, List.length_cons]
    ring

theorem rawSections_length (m : Mach) :
    m.rawSections.length = 2 * sectionSize m.ctx := by
  unfold Mach.rawSections
  rw [flatMap_serializeSection_length, patchSections_length]
  rfl

theorem flatMap_data_length (l : List Definition) :
    (l.flatMap (·.data)).length = sumLens l := by
  induction l with
  | nil => rfl
  | cons d rest ih => simp only [List.flatMap_cons, List.length_append, ih, sumLens,
      List.map_cons, List.sum_cons]

theorem flatMap_nlist_length (ctx : Ctx) (l : List (Nat × SymbolBuilder)) :
    (l.flatMap (fun p => serializeNlist ctx p.2.create)).length = l.length * nlistSize ctx := by
  induction l with
  | nil => simp
  | cons p rest ih =>
    simp only [List.flatMap_cons, List.length_append, ih,
      serializeNlist_length, List.length_cons]
    ring

theorem flatMap_reloc_length (b : List RelocationInfo) :
    (b.flatMap serializeReloc).length = b.length * 8 := by
  induction b with
  | nil => rfl
  | cons r rest ih =>
    simp only [List.flatMap_cons, List.length_append, ih,
      serializeReloc_length, List.length_cons]
    ring

theorem flatMap_buckets_length (rl : List (List RelocationInfo)) :
    (rl.flatMap (fun bucket => bucket.flatMap serializeReloc)).length =
      (rl.map List.length).sum * 8 := by
  induction rl with
  | nil => rfl
  | cons b rest ih =>
    simp only [List.flatMap_cons, List.length_append, ih, flatMap_reloc_length,
      List.map_cons, List.sum_cons]
    ring

theorem machBytes_length (m : Mach) (h : WF m.symtab) :
    m.machBytes.length =
      headerSize m.ctx + sizeofLoadCommands m.ctx + sumLens m.code + sumLens m.data +
        m.symtab.len * nlistSize m.ctx + m.symtab.sizeof_strtable + m.nrelocs * 8 + 1 := by
  unfold Mach.machBytes
  simp only [List.length_append, serializeHeader_length, serializeSegment_length,
    rawSections_length, serializeSymtabCommand_length, flatMap_data_length,
    flatMap_nlist_length, flatMap_buckets_length, strtabBytes_length_of_WF h,
    List.length_cons, List.length_nil]
  unfold sizeofLoadCommands SegmentBuilder.load_command_size SegmentBuilder.NSECTIONS
    Mach.nrelocs SymbolTable.len SymbolTable.sizeof_strtable SymtabCommand.new
  dsimp only
  ring

theorem segmentLoadCommand_cmdsize (m : Mach) :
    m.segmentLoadCommand.cmdsize = SegmentBuilder.load_command_size m.ctx := by
  unfold Mach.segmentLoadCommand SegmentBuilder.load_command_size SegmentBuilder.NSECTIONS
  dsimp only
  rw [rawSections_length]

theorem symtabLoadCommand_cmdsize (m : Mach) :
    m.symtabLoadCommand.cmdsize = 24 := rfl

theorem write_eq (m : Mach) : m.write = some m.machBytes := by
  unfold Mach.write
  rw [if_pos]
  rw [segmentLoadCommand_cmdsize, symtabLoadCommand_cmdsize]
  unfold Mach.symtableOffset sizeofLoadCommands SymtabCommand.new
  dsimp only
  omega

theorem mach_code_data_size (ctx : Ctx) (a : Artifact) :
    (Mach.new ctx a).segment.size =
      sumLens (Mach.new ctx a).code + sumLens (Mach.new ctx a).data := by
  unfold Mach.new
  dsimp only
  rw [segment_new_size]

theorem lor_step {x : Nat} (k m : Nat) (h : x < 2 ^ k) :
    x ||| 2 ^ k * m = 2 ^ k * m + x := by
  rw [Nat.lor_comm]
  exact (Nat.mul_add_lt_is_or h m).symm

theorem create_r_address (j off t : Nat) :
    ((RelocationBuilder.new j off t).create).r_address = off % 4294967296 := rfl

theorem create_r_info (j off t : Nat) (hj : j < 16777216) (ht : t < 16) :
    ((RelocationBuilder.new j off t).create).r_info = 268435456 * t + 218103808 + j := by
  have e1 : ((RelocationBuilder.new j off t).create).r_info =
      j % 4294967296 ||| 1 <<< 24 ||| 2 <<< 25 ||| 1 <<< 27 ||| t <<< 28 % 4294967296 := rfl
  rw [e1]
  have hj32 : j % 4294967296 = j := Nat.mod_eq_of_lt (by omega)
  have ht32 : t <<< 28 % 4294967296 = 268435456 * t := by
    rw [Nat.shiftLeft_eq]
    norm_num
    rw [Nat.mod_eq_of_lt (by omega)]
    ring
  have h24 : (1 : Nat) <<< 24 = 16777216 := by norm_num [Nat.shiftLeft_eq]
  have h25 : (2 : Nat) <<< 25 = 67108864 := by norm_num [Nat.shiftLeft_eq]
  have h27 : (1 : Nat) <<< 27 = 134217728 := by norm_num [Nat.shiftLeft_eq]
  rw [hj32, ht32, h24, h25, h27, Nat.lor_assoc, Nat.lor_assoc, Nat.lor_assoc]
  have sCD : (134217728 : Nat) ||| 268435456 * t = 268435456 * t + 134217728 := by
    have := lor_step (x := 134217728) 28 t (by norm_num)
    norm_num at this
    exact this
  rw [sCD]
  have sB : (67108864 : Nat) ||| 268435456 * t + 134217728 = 268435456 * t + 201326592 := by
    have h2 : 268435456 * t + 134217728 = 2 ^ 27 * (2 * t + 1) := by ring
    rw [h2, lor_step (x := 67108864) 27 (2 * t + 1) (by norm_num)]
    ring
  rw [sB]
  have sA : (16777216 : Nat) ||| 268435456 * t + 201326592 = 268435456 * t + 218103808 := by
    have h2 : 268435456 * t + 201326592 = 2 ^ 26 * (4 * t + 3) := by ring
    rw [h2, lor_step (x := 16777216) 26 (4 * t + 3) (by norm_num)]
    ring
  rw [sA]
  have h2 : 268435456 * t + 218103808 = 2 ^ 24 * (16 * t + 13) := by ring
  rw [h2, lor_step (x := j) 24 (16 * t + 13) hj]

theorem relocTypeOf_lt (d : Decl) : relocTypeOf d < 16 := by
  cases d <;> decide

theorem sectionLoop_offset_mono (sect : Nat) (defs : List Definition)
    (t : SymbolTable) (so ls : Nat) {m : Name} {v : Nat}
    (hWF : WF t) (hm : t.offset m = some v) :
    (sectionLoop sect defs t so ls).1.offset m = some v := by
  induction defs generalizing t so ls with
  | nil => exact hm
  | cons d rest ih =>
    exact ih _ _ _ (WF_insert _ _ hWF) (offset_insert_preserved _ _ hWF hm)

theorem foldl_insert_offset_mono (imports : List Name) (t : SymbolTable)
    {m : Name} {v : Nat} (hWF : WF t) (hm : t.offset m = some v) :
    (imports.foldl (fun acc n => acc.insert n .Undefined) t).offset m = some v := by
  induction imports generalizing t with
  | nil => exact hm
  | cons n rest ih =>
    exact ih _ (WF_insert _ _ hWF) (offset_insert_preserved _ _ hWF hm)

theorem insert_internGet_none {t : SymbolTable} {m : Name}
    (nm : Name) (kind : SymbolType)
    (hm : internGet t.strtable m = none) (hne : m ≠ nm) :
    internGet (t.insert nm kind).strtable m = none := by
  cases hget : internGet t.strtable nm with
  | some i => rw [insert_of_found kind hget]; exact hm
  | none =>
    rw [insert_of_fresh kind hget]
    exact internGet_append_none_of_ne nm hm hne

theorem sectionLoop_internGet_none (sect : Nat) (defs : List Definition)
    (t : SymbolTable) (so ls : Nat) {m : Name}
    (hm : internGet t.strtable m = none) (hnot : m ∉ defs.map (·.name)) :
    internGet (sectionLoop sect defs t so ls).1.strtable m = none := by
  induction defs generalizing t so ls with
  | nil => exact hm
  | cons d rest ih =>
    rw [List.map_cons, List.mem_cons] at hnot
    push_neg at hnot
    exact ih _ _ _ (insert_internGet_none _ _ hm hnot.1) hnot.2

theorem sectionLoop_offset_at (sect : Nat) (defs : List Definition)
    (t : SymbolTable) (so ls : Nat) (hWF : WF t)
    (hfresh : ∀ d ∈ defs, internGet t.strtable d.name = none)
    (hnodup : (defs.map (·.name)).Nodup) :
    ∀ i (hi : i < defs.length),
      (sectionLoop sect defs t so ls).1.offset (defs.get ⟨i, hi⟩).name =
        some (so + sumLens (defs.take i)) := by
  induction defs generalizing t so ls with
  | nil => intro i hi; simp at hi
  | cons d rest ih =>
    intro i hi
    rw [List.map_cons, List.nodup_cons] at hnodup
    obtain ⟨hnotin, hnodup2⟩ := hnodup
    have hdfresh := hfresh d (List.mem_cons_self d rest)
    have hWF2 : WF (t.insert d.name (.Defined sect so d.global)) := WF_insert _ _ hWF
    cases i with
    | zero =>
      have h0 : (t.insert d.name (.Defined sect so d.global)).offset d.name = some so := by
        rw [offset_insert_fresh _ hWF hdfresh, insertBuilder_offset_defined]
      have := sectionLoop_offset_mono sect rest
        (t.insert d.name (.Defined sect so d.global))
        (so + d.data.length) (ls + d.data.length) hWF2 h0
      rw [sectionLoop]
      simpa [sumLens] using this
    | succ j =>
      have hfresh2 : ∀ d2 ∈ rest,
          internGet (t.insert d.name (.Defined sect so d.global)).strtable d2.name = none := by
        intro d2 hd2
        refine insert_internGet_none _ _ (hfresh d2 (List.mem_cons_of_mem d hd2)) ?_
        intro he
        exact hnotin (he ▸ List.mem_map_of_mem (·.name) hd2)
      have hj : j < rest.length := by
        simp only [List.length_cons] at hi
        omega
      have := ih (t.insert d.name (.Defined sect so d.global))
        (so + d.data.length) (ls + d.data.length) hWF2 hfresh2 hnodup2 j hj
      rw [sectionLoop]
      have hsum : so + d.data.length + sumLens (rest.take j) =
          so + sumLens ((d :: rest).take (j + 1)) := by
        rw [List.take_succ_cons]
        simp [sumLens]
        omega
      rw [← hsum]
      exact this

theorem internGet_new {nm : Name} (h : nm ≠ []) :
    internGet SymbolTable.new.strtable nm = none := by
  simp only [SymbolTable.new, internGet]
  rw [if_neg fun he => h he.symm]
  rfl

theorem segment_new_data_offset (ctx : Ctx) (imports : List Name)
    (code data : List Definition)
    (hnd : ((code ++ data).map (·.name)).Nodup)
    (hnonempty : ∀ d ∈ code ++ data, d.name ≠ ([] : Name)) :
    ∀ i (hi : i < data.length),
      (SegmentBuilder.new ctx imports code data SymbolTable.new).1.offset
          (data.get ⟨i, hi⟩).name =
        some (sumLens code + sumLens (data.take i)) := by
  intro i hi
  rw [List.map_append, List.nodup_append] at hnd
  obtain ⟨hndcode, hnddata, hdisj⟩ := hnd
  have hfreshData : ∀ d ∈ data,
      internGet (sectionLoop CODE_SECTION_INDEX code SymbolTable.new 0 0).1.strtable
        d.name = none := by
    intro d hd
    refine sectionLoop_internGet_none _ _ _ _ _
      (internGet_new (hnonempty d (List.mem_append_right code hd))) ?_
    intro hmem
    exact hdisj hmem (List.mem_map_of_mem (·.name) hd)
  have hWF1 : WF (sectionLoop CODE_SECTION_INDEX code SymbolTable.new 0 0).1 :=
    sectionLoop_WF _ _ _ _ _ WF_new
  have hso : (sectionLoop CODE_SECTION_INDEX code SymbolTable.new 0 0).2.1 =
      sumLens code := by
    rw [sectionLoop_symOff, Nat.zero_add]
  have key := sectionLoop_offset_at DATA_SECTION_INDEX data
    (sectionLoop CODE_SECTION_INDEX code SymbolTable.new 0 0).1
    (sumLens code) 0 hWF1 hfreshData hnddata i hi
  unfold SegmentBuilder.new build_section
  dsimp only
  rw [hso]
  exact foldl_insert_offset_mono _ _ (sectionLoop_WF _ _ _ _ _ hWF1) key

theorem machBytes_decomp (m : Mach) :
    m.machBytes = m.prefixBytes ++ (strtabBytes m.symtab.strtable ++
      (m.relocations.flatMap (fun bucket => bucket.flatMap serializeReloc) ++ [0])) := by
  unfold Mach.machBytes Mach.prefixBytes
  simp [List.append_assoc]

theorem prefixBytes_length (m : Mach) :
    m.prefixBytes.length = headerSize m.ctx + sizeofLoadCommands m.ctx +
      sumLens m.code + sumLens m.data + m.symtab.len * nlistSize m.ctx := by
  unfold Mach.prefixBytes
  simp only [List.length_append, serializeHeader_length, serializeSegment_length,
    rawSections_length, serializeSymtabCommand_length, flatMap_data_length,
    flatMap_nlist_length]
  unfold sizeofLoadCommands SegmentBuilder.load_command_size SegmentBuilder.NSECTIONS
    SymtabCommand.new SymbolTable.len
  dsimp only
  ring

theorem mach_prefix_eq_strtableOffset (ctx : Ctx) (a : Artifact) :
    (Mach.new ctx a).prefixBytes.length = (Mach.new ctx a).strtableOffset := by
  rw [prefixBytes_length]
  unfold Mach.strtableOffset Mach.symtableOffset
  rw [mach_segment_offset, mach_code_data_size]
  have hc : (Mach.new ctx a).ctx = ctx := rfl
  rw [hc]
  omega

theorem create_n_strx (b : SymbolBuilder) : b.create.n_strx = b.name := rfl

theorem mach_strtab_byte (ctx : Ctx) (a : Artifact)
    (p : Nat × SymbolBuilder) (hp : p ∈ (Mach.new ctx a).symtab.symbols) :
    ((Mach.new ctx a).machBytes)[(Mach.new ctx a).strtableOffset + p.2.name]? =
      some 0x5f := by
  have hWF := machWF ctx a
  have hb := hWF.2.2.1 p hp
  have hlen := strtabBytes_length_of_WF hWF
  rw [machBytes_decomp, ← mach_prefix_eq_strtableOffset,
    List.getElem?_append_right (Nat.le_add_right _ _), Nat.add_sub_cancel_left,
    List.getElem?_append, if_pos (by rw [hlen]; exact hb.2.1)]
  exact hb.2.2

theorem foldl_inserts_WF (ops : List (Name × SymbolType)) (t : SymbolTable)
    (h : WF t) : WF (ops.foldl (fun t op => t.insert op.1 op.2) t) := by
  induction ops generalizing t with
  | nil => exact h
  | cons op rest ih => exact ih _ (WF_insert _ _ h)

theorem applyInserts_WF (ops : List (Name × SymbolType)) : WF (applyInserts ops) :=
  foldl_inserts_WF ops _ WF_new

/-- C1: for every artifact for which `write` succeeds, the total number of
bytes emitted equals `relocation_offset_start + nrelocs * 8 + 1`, where
`relocation_offset_start = strtable_offset + sizeof_strtable`,
`strtable_offset = symtable_offset + len(symtab) * sizeof(Nlist)`, and
`nrelocs` is the total count of emitted relocation records (the final byte
being the single trailing NUL). -/
theorem claim_c1 (ctx : Ctx) (a : Artifact) :
    ((Mach.new ctx a).write).map List.length =
      some ((Mach.new ctx a).relocationOffsetStart + (Mach.new ctx a).nrelocs * 8 + 1) := by
  rw [write_eq, Option.map_some']
  refine congrArg some ?_
  have hc : (Mach.new ctx a).ctx = ctx := rfl
  rw [machBytes_length (Mach.new ctx a) (machWF ctx a)]
  unfold Mach.relocationOffsetStart Mach.strtableOffset Mach.symtableOffset
  rw [mach_segment_offset, mach_code_data_size, hc]
  omega

/-- C2: for every artifact the layout assertion in `write` holds —
`symtable_offset == segment.offset + segment_load_command.cmdsize +
symtab_load_command.cmdsize` — and, equivalently, `symtable_offset` equals
`first_section_offset + segment.size` (the total text+data byte size). -/
theorem claim_c2 (ctx : Ctx) (a : Artifact) :
    (Mach.new ctx a).symtableOffset =
      (Mach.new ctx a).segment.offset + (Mach.new ctx a).segmentLoadCommand.cmdsize +
        (Mach.new ctx a).symtabLoadCommand.cmdsize ∧
    (Mach.new ctx a).symtableOffset =
      (Mach.new ctx a).firstSectionOffset + (Mach.new ctx a).segment.size := by
  constructor
  · rw [segmentLoadCommand_cmdsize, symtabLoadCommand_cmdsize]
    unfold Mach.symtableOffset sizeofLoadCommands SymtabCommand.new
    dsimp only
    omega
  · unfold Mach.symtableOffset Mach.firstSectionOffset
    rw [mach_segment_offset]
    have hc : (Mach.new ctx a).ctx = ctx := rfl
    rw [hc]
    omega

/-- C3: for every sequence of `SymbolTable::insert` calls, `strtable_size`
equals 1 plus the sum over distinct inserted names of `len(name) + 2`, which
is exactly the number of bytes the string-table serialization writes (one
leading NUL, then per name an underscore, the name bytes, and a NUL); and
for every symbol, its recorded `n_strx` is less than `strtable_size` and the
byte written at `strtable_offset + n_strx` is `0x5F`. -/
theorem claim_c3 :
    (∀ ops : List (Name × SymbolType),
      (applyInserts ops).strtable_size =
        1 + (((applyInserts ops).strtable.drop 1).map (fun s => s.length + 2)).sum ∧
      (strtabBytes (applyInserts ops).strtable).length = (applyInserts ops).strtable_size ∧
      ∀ p ∈ (applyInserts ops).symbols,
        (SymbolBuilder.create p.2).n_strx < (applyInserts ops).strtable_size ∧
        (strtabBytes (applyInserts ops).strtable)[(SymbolBuilder.create p.2).n_strx]? =
          some 0x5f) ∧
    (∀ (ctx : Ctx) (a : Artifact), ∀ p ∈ (Mach.new ctx a).symtab.symbols,
      (SymbolBuilder.create p.2).n_strx < (Mach.new ctx a).symtab.sizeof_strtable ∧
      ((Mach.new ctx a).machBytes)[(Mach.new ctx a).strtableOffset +
        (SymbolBuilder.create p.2).n_strx]? = some 0x5f) := by
  constructor
  · intro ops
    have hWF := applyInserts_WF ops
    refine ⟨hWF.1, strtabBytes_length_of_WF hWF, ?_⟩
    intro p hp
    rw [create_n_strx]
    exact ⟨(hWF.2.2.1 p hp).2.1, (hWF.2.2.1 p hp).2.2⟩
  · intro ctx a p hp
    rw [create_n_strx]
    exact ⟨((machWF ctx a).2.2.1 p hp).2.1, mach_strtab_byte ctx a p hp⟩

/-- Witness for C3 at a concrete insert sequence and a concrete artifact. -/
theorem claim_c3_witness :
    (strtabBytes (applyInserts [([109, 97, 105, 110], SymbolType.Defined 0 0 true)]).strtable)[
      (SymbolBuilder.create ⟨1, some 0, true, false, 0⟩).n_strx]? = some 0x5f ∧
    ((Mach.new ctx64 artMain).machBytes)[(Mach.new ctx64 artMain).strtableOffset +
      (SymbolBuilder.create ⟨1, some 0, true, false, 0⟩).n_strx]? = some 0x5f :=
  ⟨((claim_c3.1 [([109, 97, 105, 110], SymbolType.Defined 0 0 true)]).2.2
      (1, ⟨1, some 0, true, false, 0⟩) (by decide)).2,
    (claim_c3.2 ctx64 artMain (1, ⟨1, some 0, true, false, 0⟩) (by decide)).2⟩

/-- C4: for every link whose from-name has a recorded offset and whose
to-name has an ordinal in the symbol table, exactly one relocation record is
produced, with `r_address == from_offset + link.at`, `r_extern == 1` (bit 27
of `r_info`), `r_symbolnum` (bits 0..24) equal to the target's ordinal which
is below `symtab.len()`, `r_pcrel == 1` (bit 24), `r_length == 2` (bits
25..27), and `r_type` (bits 28..32) determined by the target declaration:
`Function` and `FunctionImport` give `X86_64_RELOC_BRANCH`, `Data` and
`CString` give `X86_64_RELOC_SIGNED`, `DataImport` gives
`X86_64_RELOC_GOT_LOAD` (stated for packings that fit: ordinal below 2^24
and address below 2^31). -/
theorem claim_c4 (t : SymbolTable) (hWF : WF t) (l : Link) (base j : Nat)
    (hoff : t.offset l.fromName = some base)
    (hidx : t.index l.toName = some j)
    (hfit : base + l.atOff < 2147483648) (hj : j < 16777216) :
    linkStep t l =
      some ((RelocationBuilder.new j (base + l.atOff) (relocTypeOf l.toDecl)).create) ∧
    j < t.len ∧
    ∀ r, linkStep t l = some r →
      r.r_address = base + l.atOff ∧
      r.r_info % 16777216 = j ∧
      r.r_info / 16777216 % 2 = 1 ∧
      r.r_info / 33554432 % 4 = 2 ∧
      r.r_info / 134217728 % 2 = 1 ∧
      r.r_info / 268435456 = relocTypeOf l.toDecl := by
  have hstep : linkStep t l =
      some ((RelocationBuilder.new j (base + l.atOff) (relocTypeOf l.toDecl)).create) := by
    simp [linkStep, hoff, hidx]
  refine ⟨hstep, index_some_lt_len hWF hidx, ?_⟩
  intro r hr
  rw [hstep] at hr
  injection hr with hr
  subst hr
  have ht := relocTypeOf_lt l.toDecl
  constructor
  · rw [create_r_address]
    exact Nat.mod_eq_of_lt (by omega)
  · rw [create_r_info _ _ _ hj ht]
    omega

/-- Witness for C4 on scenario S3: `f` calls import `g` at offset 1. -/
theorem claim_c4_witness :
    linkStep (Mach.new ctx64 artS3).symtab linkFG =
      some ((RelocationBuilder.new 1 (0 + linkFG.atOff) (relocTypeOf linkFG.toDecl)).create) ∧
    1 < (Mach.new ctx64 artS3).symtab.len ∧
    ∀ r, linkStep (Mach.new ctx64 artS3).symtab linkFG = some r →
      r.r_address = 0 + linkFG.atOff ∧
      r.r_info % 16777216 = 1 ∧
      r.r_info / 16777216 % 2 = 1 ∧
      r.r_info / 33554432 % 4 = 2 ∧
      r.r_info / 134217728 % 2 = 1 ∧
      r.r_info / 268435456 = relocTypeOf linkFG.toDecl :=
  claim_c4 (Mach.new ctx64 artS3).symtab (by decide) linkFG 0 1
    (by decide) (by decide) (by decide) (by decide)

/-- C5, counterexample: on the empty artifact in the 64-bit context the
`SegmentBuilder` offset field is `sizeof(Header) = 32`, not
`sizeof(Header) + sizeof(Segment) + 2 * sizeof(Section) = 264`. -/
theorem claim_c5_counterexample :
    ¬ ((Mach.new ctx64 artEmpty).segment.offset =
        headerSize ctx64 + segmentSize ctx64 + 2 * sectionSize ctx64) := by decide

/-- C5, amended: for every artifact the `SegmentBuilder` offset field equals
`sizeof(Header)` plus the segment's total text+data byte size — the build
pass advances it by the section data sizes, not by the load-command sizes. -/
theorem claim_c5_amended (ctx : Ctx) (a : Artifact) :
    (Mach.new ctx a).segment.offset = headerSize ctx + (Mach.new ctx a).segment.size :=
  mach_segment_offset ctx a

/-- C6: for every artifact whose definition names are distinct (and
non-empty, so each insert takes effect), the in-section offset recorded for
the i-th data definition's symbol is the sum of all code payload lengths
plus the lengths of the data payloads before it — the `symbol_offset`
counter is not reset between the text and data sections. -/
theorem claim_c6 (ctx : Ctx) (a : Artifact)
    (hnodup : (a.defs.map (·.name)).Nodup)
    (hnonempty : ∀ d ∈ a.defs, d.name ≠ ([] : Name)) :
    ∀ i (hi : i < (a.defs.partition (·.function)).2.length),
      (Mach.new ctx a).symtab.offset
          ((a.defs.partition (·.function)).2.get ⟨i, hi⟩).name =
        some (sumLens (a.defs.partition (·.function)).1 +
          sumLens ((a.defs.partition (·.function)).2.take i)) := by
  intro i hi
  have hm : (Mach.new ctx a).symtab =
      (SegmentBuilder.new ctx a.imports (a.defs.partition (·.function)).1
        (a.defs.partition (·.function)).2 SymbolTable.new).1 := rfl
  rw [hm]
  refine segment_new_data_offset ctx a.imports _ _ ?_ ?_ i hi
  · have hperm : List.Perm
        ((a.defs.partition (·.function)).1 ++ (a.defs.partition (·.function)).2)
        a.defs := by
      rw [List.partition_eq_filter_filter]
      exact List.filter_append_perm _ _
    exact ((hperm.map (·.name)).symm).nodup hnodup
  · intro d hd
    apply hnonempty
    rw [List.partition_eq_filter_filter] at hd
    rcases List.mem_append.1 hd with hd | hd
    · exact List.mem_of_mem_filter hd
    · exact List.mem_of_mem_filter hd

/-- Witness for C6 on scenario S4: data `d` (8 bytes) after function `f`
(2 bytes) records offset 2, the total code size. -/
theorem claim_c6_witness :
    (Mach.new ctx64 artS4).symtab.offset
        ((artS4.defs.partition (·.function)).2.get ⟨0, by decide⟩).name =
      some (sumLens (artS4.defs.partition (·.function)).1 +
        sumLens ((artS4.defs.partition (·.function)).2.take 0)) :=
  claim_c6 ctx64 artS4 (by decide) (by decide) 0 (by decide)

/-- C7: a link for which the source offset or target ordinal lookup fails is
dropped — no relocation record is produced for it — and emission of the rest
of the object file continues and succeeds. -/
theorem claim_c7 (ctx : Ctx) (a : Artifact) (l : Link) (hl : l ∈ a.links)
    (h : (Mach.new ctx a).symtab.offset l.fromName = none ∨
      (Mach.new ctx a).symtab.index l.toName = none) :
    linkStep (Mach.new ctx a).symtab l = none ∧
    (Mach.new ctx a).write = some (Mach.new ctx a).machBytes := by
  refine ⟨?_, write_eq _⟩
  rcases h with h | h
  · cases hidx : (Mach.new ctx a).symtab.index l.toName <;> simp [linkStep, h, hidx]
  · cases hoff : (Mach.new ctx a).symtab.offset l.fromName <;> simp [linkStep, h, hoff]

/-- Witness for C7: a link to the absent name `h` is dropped and the write
still produces the full byte image. -/
theorem claim_c7_witness :
    linkStep (Mach.new ctx64 artMissing).symtab linkMissing = none ∧
    (Mach.new ctx64 artMissing).write = some (Mach.new ctx64 artMissing).machBytes :=
  claim_c7 ctx64 artMissing linkMissing (by decide) (Or.inr (by decide))

/-- C8: inserting a name that is already present leaves `symtab.len()`
unchanged and does not overwrite the recorded builders: the re-insert is
silently ignored and the first definition wins. -/
theorem claim_c8 (t : SymbolTable) (nm : Name) (kind : SymbolType) (i : Nat)
    (h : internGet t.strtable nm = some i) :
    (t.insert nm kind).len = t.len ∧ (t.insert nm kind).symbols = t.symbols := by
  rw [insert_of_found kind h]
  exact ⟨rfl, rfl⟩

/-- Witness for C8: a second insert of `f` with a different kind and offset
changes nothing. -/
theorem claim_c8_witness :
    ((SymbolTable.new.insert [102] (.Defined 0 7 true)).insert [102]
        (.Defined 1 99 false)).len =
      (SymbolTable.new.insert [102] (.Defined 0 7 true)).len ∧
    ((SymbolTable.new.insert [102] (.Defined 0 7 true)).insert [102]
        (.Defined 1 99 false)).symbols =
      (SymbolTable.new.insert [102] (.Defined 0 7 true)).symbols :=
  claim_c8 _ [102] (.Defined 1 99 false) 1 (by decide)

/-- C9: `to_bytes` is deterministic — the emitter is a pure function of the
artifact (and its derived context), so two evaluations on the same artifact
produce byte-identical output. -/
theorem claim_c9 (ctx : Ctx) (a : Artifact) :
    Mach.to_bytes ctx a = Mach.to_bytes ctx a := rfl

/-- C10: a name inserted as `Undefined` (an import) has `offset` equal to
`Some(0)` rather than none; consequently a link whose from-name is an import
is not dropped and yields a relocation record with `r_address == link.at`
(stated for addresses that fit in an `i32`). -/
theorem claim_c10 :
    (∀ (t : SymbolTable) (nm : Name), WF t → internGet t.strtable nm = none →
      (t.insert nm .Undefined).offset nm = some 0) ∧
    (∀ (t : SymbolTable) (l : Link) (j : Nat), t.offset l.fromName = some 0 →
      t.index l.toName = some j → l.atOff < 2147483648 →
      (linkStep t l).map RelocationInfo.r_address = some l.atOff) := by
  constructor
  · intro t nm hWF h
    rw [offset_insert_fresh _ hWF h, insertBuilder_offset_undefined]
  · intro t l j hoff hidx hfit
    have hstep : linkStep t l =
        some ((RelocationBuilder.new j (0 + l.atOff) (relocTypeOf l.toDecl)).create) := by
      simp [linkStep, hoff, hidx]
    rw [hstep, Option.map_some', create_r_address, Nat.zero_add,
      Nat.mod_eq_of_lt (by omega)]

/-- Witness for C10: the import `g` gets offset `Some 0`, and the S3 link
from `f` to `g` yields a record whose `r_address` is the link's `at`. -/
theorem claim_c10_witness :
    ((SymbolTable.new.insert [103] .Undefined).offset [103] = some 0) ∧
    ((linkStep (Mach.new ctx64 artS3).symtab linkFG).map RelocationInfo.r_address =
      some linkFG.atOff) :=
  ⟨claim_c10.1 SymbolTable.new [103] (by decide) (by decide),
    claim_c10.2 (Mach.new ctx64 artS3).symtab linkFG 1 (by decide) (by decide) (by decide)⟩
